import Mathlib

/-!
Verification of the Neuroplayer-to-LabChart exporter.

This file gives a shallow embedding of the core algorithms of the
repository — the NDF telemetry reader (`ndf_reader.py`), the LabChart
exporter (`labchart_exporter.py`) and the session grouper
(`ndf_to_text_converter.py`) — and proves or refutes the specification
claims about them.

Modelling conventions:
  - Bytes are `ℕ` (each `< 256` where it matters); whole files are `List ℕ`.
  - Python `float` values that only carry times, rates and thresholds are
    modelled as `ℚ`; the claims under study do not depend on binary
    floating-point rounding, except `round(x, 9)` which we model as
    rounding to the nearest multiple of `10⁻⁹` (Python uses half-to-even
    on binary floats; no claim depends on the tie rule).
  - Python `int` sample values are `ℤ`; Python `//` is `Int.fdiv`
    (floor division) and Python `int()` on a float truncates toward zero.
  - Python `dict` insertion is modelled with association lists updated in
    place (`setChannelValue`, `insertGroupSample`), preserving insertion
    order exactly as CPython does.
  - Python `list.sort` / `sorted` are stable; they are modelled with
    `List.insertionSort` on the non-strict key order, which is stable.
  - Fallible paths (`raise ValueError`, error-print-and-return) are
    modelled with `Except String`.
-/

set_option maxRecDepth 100000

/-! ## Byte-level helpers (ndf_reader.py) -/

/-- Reading `len` bytes at byte offset `off`, as `f.seek(off); f.read(len)`. -/
def readBytes (file : List ℕ) (off len : ℕ) : List ℕ :=
  (file.drop off).take len

/-- `struct.unpack("<H", msg[0:2])[0]`: little-endian 16-bit value of the
first two bytes of a message. -/
def msgTimestamp (msg : List ℕ) : ℕ :=
  msg.getD 1 0 * 256 + msg.getD 0 0

/-- The fixed candidate list probed by `NDFReader._find_data_section`. -/
def candidateOffsets : List ℕ := [512, 1024, 2048, 4096, 8192, 16384, 20480]

/-- `sum(1 for b in test_data if b != 0)` over the 1024 bytes read at `off`. -/
def nonZeroCount (file : List ℕ) (off : ℕ) : ℕ :=
  ((readBytes file off 1024).filter (fun b => b ≠ 0)).length

/-- The message-sampling loop of `NDFReader._validate_telemetry_region`:
read up to `remaining` consecutive 8-byte messages starting at `pos`,
stopping at the first short read, and count those whose bytes are not all
zero and whose leading 16-bit timestamp lies strictly between 1000 and
65000. -/
def validMsgCount (file : List ℕ) : (pos remaining : ℕ) → ℕ
  | _, 0 => 0
  | pos, remaining + 1 =>
    let msg := readBytes file pos 8
    if msg.length < 8 then 0
    else
      (if 0 < msg.sum ∧ 1000 < msgTimestamp msg ∧ msgTimestamp msg < 65000 then 1 else 0)
        + validMsgCount file (pos + 8) remaining

/-- `NDFReader._validate_telemetry_region`: at least 5 of the first 10
sampled messages must look like telemetry. -/
def validateTelemetryRegion (file : List ℕ) (off : ℕ) : Bool :=
  5 ≤ validMsgCount file off 10

/-- The candidate loop of `NDFReader._find_data_section`: skip offsets at
or past the end of file, demand strictly more than 100 non-zero bytes,
then validate; the first surviving offset wins. -/
def findDataSectionLoop (file : List ℕ) : List ℕ → Option ℕ
  | [] => none
  | off :: rest =>
    if file.length ≤ off then findDataSectionLoop file rest
    else if 100 < nonZeroCount file off then
      if validateTelemetryRegion file off then some off
      else findDataSectionLoop file rest
    else findDataSectionLoop file rest

/-- `data_start_offset` after `NDFReader._find_data_section` runs: the
first accepted candidate, or the 20480 fallback. -/
def findDataSection (file : List ℕ) : ℕ :=
  (findDataSectionLoop file candidateOffsets).getD 20480

/-- True exactly when `_find_data_section` takes the fallback branch and
prints its warning. -/
def findDataSectionWarned (file : List ℕ) : Bool :=
  (findDataSectionLoop file candidateOffsets).isNone

/-- Acceptance of a candidate offset as the code implements it: the offset
is inside the file, strictly more than 100 of the 1024 bytes read there
are non-zero, and the region validates. -/
def acceptsOffset (file : List ℕ) (off : ℕ) : Bool :=
  decide (off < file.length) && decide (100 < nonZeroCount file off)
    && validateTelemetryRegion file off

/-- Acceptance of a candidate offset as claim C1 words it: rejected
exactly when FEWER THAN 100 of the bytes read are non-zero, otherwise
accepted exactly when the region validates. -/
def claimAcceptsOffset (file : List ℕ) (off : ℕ) : Bool :=
  !(decide (nonZeroCount file off < 100)) && validateTelemetryRegion file off

/-- The data-start offset the wording of claim C1 predicts. -/
def claimFindDataSection (file : List ℕ) : ℕ :=
  (candidateOffsets.find? (claimAcceptsOffset file)).getD 20480

/-! ## Telemetry message parsing (ndf_reader.py) -/

/-- One decoded 8-byte OSI telemetry message, as built by
`NDFReader._parse_telemetry_messages`. -/
structure TelemetryMsg where
  timestamp : ℕ
  channel : ℕ
  msgType : ℕ
  samples : List ℤ
deriving DecidableEq

/-- `NDFReader._parse_telemetry_messages` from the data-start offset on:
consume consecutive 8-byte records until fewer than 8 bytes remain.
`timestamp = (b1 << 8) | b0`; the little-endian identifier at bytes 2–3
yields `channel = identifier & 0x0F` and `message_type =
(identifier >> 4) & 0x0F`; bytes 4–5 and 6–7 are two little-endian 16-bit
samples. -/
def parseMessages : List ℕ → List TelemetryMsg
  | b0 :: b1 :: b2 :: b3 :: b4 :: b5 :: b6 :: b7 :: rest =>
    let identifier := b2 + 256 * b3
    { timestamp := b1 * 256 + b0
      channel := identifier % 16
      msgType := identifier / 16 % 16
      samples := [((b4 + 256 * b5 : ℕ) : ℤ), ((b6 + 256 * b7 : ℕ) : ℤ)] }
      :: parseMessages rest
  | _ => []

/-! ## Interval construction from messages (ndf_reader.py) -/

/-- `max(0, min(65535, sample))` from `NDFReader._messages_to_intervals`. -/
def clampSample (s : ℤ) : ℤ := max 0 (min 65535 s)

/-- Python `int()` on a rational: truncation toward zero. -/
def pyTrunc (q : ℚ) : ℤ := if q < 0 then ⌈q⌉ else ⌊q⌋

/-- `samples_per_interval = int(sample_rate * interval_length)`. -/
def samplesPerInterval (rate ilen : ℚ) : ℕ := (pyTrunc (rate * ilen)).toNat

/-- The pad-or-trim block of `NDFReader._messages_to_intervals`: a short
buffer is padded by repeating its last value until it reaches `n`
elements; a long buffer is truncated to `n` elements. -/
def fitToSize (n : ℕ) (buf : List ℤ) : List ℤ :=
  if buf.length < n then buf ++ List.replicate (n - buf.length) (buf.getLastD 0)
  else buf.take n

/-- The message loop of `NDFReader._messages_to_intervals`: clamp and
append each message's samples to the running buffer; once the buffer
reaches `n` samples, or at the final message, emit the fitted buffer as an
interval and advance the start-time counter by `ilen`. -/
def intervalsAux (n : ℕ) (ilen : ℚ) : List TelemetryMsg → List ℤ → ℚ → List (ℚ × List ℤ)
  | [], _, _ => []
  | [m], buf, start =>
    let buf2 := buf ++ m.samples.map clampSample
    if buf2 = [] then [] else [(start, fitToSize n buf2)]
  | m :: m2 :: rest, buf, start =>
    let buf2 := buf ++ m.samples.map clampSample
    if n ≤ buf2.length then
      if buf2 = [] then intervalsAux n ilen (m2 :: rest) buf2 start
      else (start, fitToSize n buf2) :: intervalsAux n ilen (m2 :: rest) [] (start + ilen)
    else intervalsAux n ilen (m2 :: rest) buf2 start

/-- `messages.sort(key=lambda m: m["timestamp"])`: stable ascending sort. -/
def sortMessagesByTimestamp (msgs : List TelemetryMsg) : List TelemetryMsg :=
  List.insertionSort (fun a b => a.timestamp ≤ b.timestamp) msgs

/-- `NDFReader._messages_to_intervals`. -/
def messagesToIntervals (msgs : List TelemetryMsg) (rate ilen : ℚ) : List (ℚ × List ℤ) :=
  if msgs = [] then []
  else intervalsAux (samplesPerInterval rate ilen) ilen (sortMessagesByTimestamp msgs) [] 0

/-! ## Text reader interval construction (ndf_reader.py, TextSignalReader) -/

/-- The `for i in range(0, len(values), n)` loop of
`TextSignalReader.read_signal`, with `i` threaded explicitly and the list
length as fuel (each iteration consumes `n ≥ 1` values). Each non-empty
slice of `n` values becomes an interval timestamped `i / rate`. -/
def chunkAux (rate : ℚ) (n : ℕ) : ℕ → ℕ → List ℤ → List (ℚ × List ℤ)
  | 0, _, _ => []
  | fuel + 1, i, values =>
    if values = [] then []
    else
      let intervalValues := values.take n
      if 0 < intervalValues.length then
        ((i : ℚ) / rate, intervalValues) :: chunkAux rate n fuel (i + n) (values.drop n)
      else chunkAux rate n fuel (i + n) (values.drop n)

/-- `TextSignalReader.read_signal` from the flat parsed value list on:
partition into chunks of `int(rate * ilen)` samples, the final chunk
possibly shorter, each timestamped by its sample index over the rate. -/
def textReadSignal (values : List ℤ) (rate ilen : ℚ) : List (ℚ × List ℤ) :=
  chunkAux rate (samplesPerInterval rate ilen) values.length 0 values

/-! ## Glitch filter (labchart_exporter.py) -/

/-- `LabChartExporter._apply_glitch_filter`: with a zero threshold or
fewer than three samples the input is returned unchanged; otherwise every
interior sample whose absolute difference from both neighbours strictly
exceeds the threshold is replaced by the floor average of the two
neighbours, all differences and averages being taken on the pre-filter
values. -/
def applyGlitchFilter (threshold : ℤ) (values : List ℤ) : List ℤ :=
  if threshold = 0 ∨ values.length < 3 then values
  else
    (List.range values.length).map fun i =>
      if 1 ≤ i ∧ i + 1 < values.length ∧
          threshold < |values.getD i 0 - values.getD (i - 1) 0| ∧
          threshold < |values.getD i 0 - values.getD (i + 1) 0| then
        (values.getD (i - 1) 0 + values.getD (i + 1) 0).fdiv 2
      else values.getD i 0

/-! ## Exporter configuration and single-channel export state (labchart_exporter.py) -/

/-- The constructor-time fields of `LabChartExporter`, all fixed for the
lifetime of an exporter instance. -/
structure LabChartExporterCfg where
  sampleRate : ℚ := 512
  rangeMV : ℚ := 120
  useCommas : Bool := false
  timeInMs : Bool := false
  valueInUV : Bool := false
  absoluteTime : Bool := false
  glitchThreshold : ℤ := 500

/-- `self.mV_per_count = range_mV / 65536.0`. -/
def mVPerCount (cfg : LabChartExporterCfg) : ℚ := cfg.rangeMV / 65536

/-- An exporter configuration with the constructor defaults. -/
def defaultCfg : LabChartExporterCfg := {}

/-- The mutable state an exporter instance carries across
`export_interval` calls: the lazily bound `start_time` and, standing in
for `os.path.exists`, the set of output files created so far (filenames
are abstract identifiers). -/
structure ExporterDyn where
  startTime : Option ℚ
  existingFiles : List ℕ
deriving DecidableEq

/-- One `export_interval` call, returning the updated exporter state and
the base time used for the data lines of this write.  If the output file
does not exist it is initialised, and in relative-time mode `start_time`
is assigned to this interval's start time; then in absolute-time mode the
lines start at the interval start itself, while in relative-time mode a
still-unset `start_time` is assigned first and the lines start at the
interval start minus `start_time`. -/
def exportIntervalStep (absoluteTime : Bool) (filename : ℕ) (intervalStartTime : ℚ)
    (s : ExporterDyn) : ExporterDyn × ℚ :=
  let s1 : ExporterDyn :=
    if filename ∈ s.existingFiles then s
    else
      { existingFiles := s.existingFiles ++ [filename]
        startTime := if absoluteTime then s.startTime else some intervalStartTime }
  if absoluteTime then (s1, intervalStartTime)
  else
    match s1.startTime with
    | none =>
      ({ s1 with startTime := some intervalStartTime },
        intervalStartTime - intervalStartTime)
    | some t0 => (s1, intervalStartTime - t0)

/-- The `start_time` update performed by `export_multi_channel` just
before writing (lines 301–307): in relative-time mode a still-unset
`start_time` is bound to the first sorted timestamp (or `0.0` with no
samples); in absolute-time mode it is left untouched. -/
def multiChannelStartUpdate (absoluteTime : Bool) (startTime : Option ℚ)
    (sortedTimesList : List ℚ) : Option ℚ :=
  if absoluteTime then startTime
  else
    match startTime with
    | none => some (sortedTimesList.headD 0)
    | some t0 => some t0

/-! ## Multi-channel export (labchart_exporter.py) -/

/-- Per-channel sample rate used by `export_multi_channel`: channel 0 is
the 128 Hz clock signal, all other channels run at 512 Hz. -/
def channelRate (ch : ℕ) : ℚ := if ch = 0 then 128 else 512

/-- `channel_data[ch]` on the association-list model of the channel map. -/
def lookupChannel : List (ℕ × List (ℚ × List ℤ)) → ℕ → Option (List (ℚ × List ℤ))
  | [], _ => none
  | p :: rest, ch => if p.1 = ch then some p.2 else lookupChannel rest ch

/-- `channels = sorted(channel_data.keys())`. -/
def sortedChannels (data : List (ℕ × List (ℚ × List ℤ))) : List ℕ :=
  List.insertionSort (fun a b => a ≤ b) (data.map Prod.fst)

/-- The sample-pooling loop of `export_multi_channel`: for each channel
in sorted order, glitch-filter each interval and expand its samples into
`(start + i · (1 / channel_rate), channel, value)` triples. -/
def allSamples (threshold : ℤ) (channels : List ℕ)
    (data : List (ℕ × List (ℚ × List ℤ))) : List (ℚ × ℕ × ℤ) :=
  (channels.map fun ch =>
    (((lookupChannel data ch).getD []).map fun iv =>
      (applyGlitchFilter threshold iv.2).enum.map fun p =>
        (iv.1 + p.1 * (1 / channelRate ch), ch, p.2)).flatten).flatten

/-- The key order of `all_samples.sort(key=lambda x: (x[0], x[1]))`. -/
def sampleLE (a b : ℚ × ℕ × ℤ) : Prop :=
  a.1 < b.1 ∨ (a.1 = b.1 ∧ a.2.1 ≤ b.2.1)

instance : DecidableRel sampleLE := fun a b => by unfold sampleLE; infer_instance

/-- The pooled sample list of `export_multi_channel`, stably sorted by
(timestamp, channel). -/
def pooledSorted (threshold : ℤ) (data : List (ℕ × List (ℚ × List ℤ))) :
    List (ℚ × ℕ × ℤ) :=
  List.insertionSort sampleLE (allSamples threshold (sortedChannels data) data)

/-- `round(sample_time, 9)`: rounding to the nearest multiple of `10⁻⁹`
(Python rounds half to even on binary floats; no claim depends on ties). -/
def roundTo9 (q : ℚ) : ℚ := ((round (q * 1000000000) : ℤ) : ℚ) / 1000000000

/-- `timestamp_groups[rounded_time][channel] = value`: dictionary
assignment on the inner channel map, overwriting an existing entry in
place or appending a new one. -/
def setChannelValue : List (ℕ × ℤ) → ℕ → ℤ → List (ℕ × ℤ)
  | [], ch, v => [(ch, v)]
  | p :: rest, ch, v =>
    if p.1 = ch then (p.1, v) :: rest else p :: setChannelValue rest ch v

/-- Lookup in the inner channel map of one output line. -/
def lookupChannelValue : List (ℕ × ℤ) → ℕ → Option ℤ
  | [], _ => none
  | p :: rest, ch => if p.1 = ch then some p.2 else lookupChannelValue rest ch

/-- Insertion of one pooled sample into `timestamp_groups`, keyed by its
rounded timestamp. -/
def insertGroupSample (groups : List (ℚ × List (ℕ × ℤ))) (rt : ℚ) (ch : ℕ) (v : ℤ) :
    List (ℚ × List (ℕ × ℤ)) :=
  match groups with
  | [] => [(rt, setChannelValue [] ch v)]
  | g :: rest =>
    if g.1 = rt then (g.1, setChannelValue g.2 ch v) :: rest
    else g :: insertGroupSample rest rt ch v

/-- The grouping loop of `export_multi_channel`: fold every pooled sample
into `timestamp_groups`. -/
def buildTimestampGroups (samples : List (ℚ × ℕ × ℤ)) : List (ℚ × List (ℕ × ℤ)) :=
  samples.foldl (fun g s => insertGroupSample g (roundTo9 s.1) s.2.1 s.2.2) []

/-- `timestamp_groups[t]`. -/
def lookupGroup : List (ℚ × List (ℕ × ℤ)) → ℚ → Option (List (ℕ × ℤ))
  | [], _ => none
  | g :: rest, t => if g.1 = t then some g.2 else lookupGroup rest t

/-- The value a line's channel map holds for `ch` at rounded time `rt`. -/
def cellAt (groups : List (ℚ × List (ℕ × ℤ))) (rt : ℚ) (ch : ℕ) : Option ℤ :=
  lookupChannelValue ((lookupGroup groups rt).getD []) ch

/-- `sorted_times = sorted(timestamp_groups.keys())`. -/
def sortedTimes (groups : List (ℚ × List (ℕ × ℤ))) : List ℚ :=
  List.insertionSort (fun a b => a ≤ b) (groups.map Prod.fst)

/-- `LabChartExporter.export_multi_channel`, modelled from the contract
checks to the data lines.  A line is a display time together with one
optional voltage per sorted channel (`none` is the blank column).  The
two `raise ValueError` branches become `Except.error`; both fire before
any line is produced. -/
def exportMultiChannel (cfg : LabChartExporterCfg) (startTime0 : Option ℚ)
    (data : List (ℕ × List (ℚ × List ℤ))) :
    Except String (List (ℚ × List (Option ℚ))) :=
  if data = [] then .error "No channel data provided"
  else
    let channels := sortedChannels data
    match channels.find? (fun ch => ((lookupChannel data ch).getD []).isEmpty) with
    | some _ => .error "Channel has no data"
    | none =>
      let samples := pooledSorted cfg.glitchThreshold data
      let groups := buildTimestampGroups samples
      let times := sortedTimes groups
      let startTimeValue : ℚ :=
        if cfg.absoluteTime then 0 else (startTime0.getD (times.headD 0))
      .ok (times.map fun t =>
        (if cfg.absoluteTime then t else t - startTimeValue,
          channels.map fun ch =>
            (cellAt groups t ch).map (fun v : ℤ => (v : ℚ) * mVPerCount cfg)))

/-! ## Session grouping (ndf_to_text_converter.py) -/

/-- What `group_ndf_files_into_sessions` extracts per input file before
grouping: `reader.get_archive_start_time()` (a Unix timestamp, `none`
when the filename does not resolve), `reader.get_file_duration()` and the
file path (an abstract identifier). -/
structure NDFFileInfo where
  timestamp : Option ℤ
  duration : Option ℚ
  name : ℕ
deriving DecidableEq

/-- The tuple list `files_with_data`: files without a resolvable
timestamp are skipped. -/
def filesWithData (files : List NDFFileInfo) : List (ℤ × Option ℚ × ℕ) :=
  files.filterMap fun f => f.timestamp.map fun ts => (ts, f.duration, f.name)

/-- `files_with_data.sort(key=lambda x: x[0])`: stable ascending sort by
timestamp. -/
def sortFilesByTimestamp (l : List (ℤ × Option ℚ × ℕ)) : List (ℤ × Option ℚ × ℕ) :=
  List.insertionSort (fun a b => a.1 ≤ b.1) l

/-- `prev_end_time`: the previous file's timestamp plus its duration, or
the timestamp alone when the duration is unresolved. -/
def prevEndTime (f : ℤ × Option ℚ × ℕ) : ℚ :=
  match f.2.1 with
  | some d => (f.1 : ℚ) + d
  | none => (f.1 : ℚ)

/-- `gap = curr_timestamp - prev_end_time`. -/
def fileGap (prev cur : ℤ × Option ℚ × ℕ) : ℚ :=
  (cur.1 : ℚ) - prevEndTime prev

/-- The grouping walk of `group_ndf_files_into_sessions`: starting from
the sorted second element, compare each file against the previous one and
open a new session exactly when the gap strictly exceeds the threshold. -/
def sessionWalk (gapThreshold : ℚ) :
    List (ℤ × Option ℚ × ℕ) → (ℤ × Option ℚ × ℕ) → List (ℤ × Option ℚ × ℕ) →
    List (List (ℤ × Option ℚ × ℕ))
  | [], _, current => [current]
  | f :: rest, prev, current =>
    if gapThreshold < fileGap prev f then
      current :: sessionWalk gapThreshold rest f [f]
    else sessionWalk gapThreshold rest f (current ++ [f])

/-- The sessions of `group_ndf_files_into_sessions` at the level of the
`(timestamp, duration, path)` tuples. -/
def sessionsOf (files : List NDFFileInfo) (gapThreshold : ℚ) :
    List (List (ℤ × Option ℚ × ℕ)) :=
  match sortFilesByTimestamp (filesWithData files) with
  | [] => []
  | first :: rest => sessionWalk gapThreshold rest first [first]

/-- `group_ndf_files_into_sessions`: sessions as lists of file paths. -/
def groupNdfFilesIntoSessions (files : List NDFFileInfo) (gapThreshold : ℚ) :
    List (List ℕ) :=
  if files = [] then []
  else if filesWithData files = [] then []
  else (sessionsOf files gapThreshold).map (List.map fun f => f.2.2)

/-! ## Filename timestamp extraction -/

/-- Decimal digit test on a character. -/
def isAsciiDigit (c : Char) : Bool := '0' ≤ c && c ≤ '9'

/-- Numeric value of a digit string. -/
def digitsToNat (ds : List Char) : ℕ :=
  ds.foldl (fun a c => 10 * a + (c.toNat - '0'.toNat)) 0

/-- Case-insensitive match of the literal extension `.ndf`. -/
def extMatchesNdf (ext : List Char) : Bool :=
  match ext with
  | [a, b, c, d] =>
    a = '.' && (b = 'n' || b = 'N') && (c = 'd' || c = 'D') && (d = 'f' || d = 'F')
  | _ => false

/-- Modelled from the spec: `NDFReader.get_archive_start_time` is absent
from the sources (only its tests and callers exist), so the extraction is
taken from the specification's words — a filename consisting of a literal
`M`, exactly 10 digits, and a case-insensitive `.ndf` extension yields
the digits as the archive start timestamp; every other filename shape
yields `none`. -/
def getArchiveStartTime (filename : List Char) : Option ℕ :=
  match filename with
  | [] => none
  | c0 :: rest =>
    if c0 = 'M' then
      let ds := rest.takeWhile isAsciiDigit
      let ext := rest.dropWhile isAsciiDigit
      if ds.length = 10 && extMatchesNdf ext then some (digitsToNat ds) else none
    else none

/-! ## NDFReader construction and channel reads (ndf_reader.py) -/

/-- The fields of a constructed `NDFReader` that the claims depend on:
the file contents and `data_start_offset` (an `Option`, as in the Python
attribute initialised to `None`). -/
structure NDFReaderState where
  file : List ℕ
  dataStartOffset : Option ℕ

/-- `NDFReader.__init__`: after `_find_data_section` runs,
`data_start_offset` holds the first accepted candidate or the 20480
fallback. -/
def mkNDFReader (file : List ℕ) : NDFReaderState :=
  { file := file
    dataStartOffset :=
      match findDataSectionLoop file candidateOffsets with
      | some off => some off
      | none => some 20480 }

/-- `NDFReader._parse_telemetry_messages`: raises when
`data_start_offset` is unresolved, otherwise parses every 8-byte message
from the offset to the end of file. -/
def parseTelemetryMessages (r : NDFReaderState) : Except String (List TelemetryMsg) :=
  match r.dataStartOffset with
  | none => .error "No telemetry data section found in NDF file"
  | some off => .ok (parseMessages (r.file.drop off))

/-- `NDFReader.read_channel_data`: the early error return when
`data_start_offset` is unresolved, then the parse, the per-channel
grouping (an absent channel yields the empty interval list) and the
interval conversion. -/
def readChannelData (r : NDFReaderState) (ch : ℕ) (rate ilen : ℚ) :
    Except String (List (ℚ × List ℤ)) :=
  match r.dataStartOffset with
  | none => .error "No telemetry data found"
  | some _ =>
    match parseTelemetryMessages r with
    | .error e => .error e
    | .ok msgs =>
      let channelMessages := msgs.filter fun m => m.channel = ch
      if channelMessages = [] then .ok []
      else .ok (messagesToIntervals channelMessages rate ilen)

/-! ## Reference chunking with a padded final chunk -/

/-- Chunking of a flat sample list into blocks of `n` with the final
short block padded by repeating its last value (fuelled recursion; the
list length is enough fuel whenever `n ≥ 1`). -/
def padChunks (n : ℕ) : ℕ → List ℤ → List (List ℤ)
  | 0, _ => []
  | _ + 1, [] => []
  | fuel + 1, v :: vs =>
    if (v :: vs).length ≤ n then [fitToSize n (v :: vs)]
    else (v :: vs).take n :: padChunks n fuel ((v :: vs).drop n)

/-- The flattened, clamped sample stream of a message list. -/
def flatSamples (msgs : List TelemetryMsg) : List ℤ :=
  (msgs.map fun m => m.samples.map clampSample).flatten

/-! ## Supporting lemmas -/

lemma findDataSectionLoop_eq_find? (file : List ℕ) :
    ∀ cands : List ℕ, findDataSectionLoop file cands = cands.find? (acceptsOffset file)
  | [] => rfl
  | off :: rest => by
    rw [findDataSectionLoop, List.find?_cons]
    by_cases h1 : file.length ≤ off
    · have ha : acceptsOffset file off = false := by
        simp [acceptsOffset, Nat.not_lt.mpr h1]
      rw [if_pos h1, ha, findDataSectionLoop_eq_find? file rest]
    · rw [if_neg h1]
      by_cases h2 : 100 < nonZeroCount file off
      · by_cases h3 : validateTelemetryRegion file off = true
        · have ha : acceptsOffset file off = true := by
            simp [acceptsOffset, Nat.lt_of_not_le h1, h2, h3]
          rw [if_pos h2, if_pos h3, ha]
        · have ha : acceptsOffset file off = false := by
            simp [acceptsOffset, Bool.eq_false_iff.mpr h3]
          rw [if_pos h2, if_neg h3, ha, findDataSectionLoop_eq_find? file rest]
      · have ha : acceptsOffset file off = false := by
          simp [acceptsOffset, h2]
        rw [if_neg h2, ha, findDataSectionLoop_eq_find? file rest]

/-! ## Claim C1 -/

/-- C1 counterexample input: a 1536-byte file whose 1024-byte window at
offset 512 holds exactly 100 non-zero bytes, laid out as telemetry
messages with timestamp 2000 so that the message validation would pass. -/
def block100 : List ℕ :=
  (List.replicate 12 ([208, 7, 1, 1, 1, 1, 1, 1] : List ℕ)).flatten ++ [208, 7, 1, 1]

/-- C1 counterexample file. -/
def probeFile : List ℕ :=
  List.replicate 512 0 ++ block100 ++ List.replicate 924 0

/-- C1 (counterexample): the claim says a candidate is rejected exactly
when fewer than 100 of its 1024 bytes are non-zero, but the code demands
strictly more than 100 non-zero bytes.  On `probeFile` the window at
offset 512 has exactly 100 non-zero bytes and validates, so the claim
predicts `data_start_offset = 512` while the code rejects every candidate
and falls back to 20480. -/
theorem C1_counterexample :
    claimFindDataSection probeFile = 512 ∧ findDataSection probeFile = 20480 ∧
      claimFindDataSection probeFile ≠ findDataSection probeFile := by
  refine ⟨by decide, by decide, by decide⟩

/-- C1 (amended): `_find_data_section` probes the candidate offsets 512,
1024, 2048, 4096, 8192, 16384, 20480 in ascending order; a candidate is
accepted exactly when it lies inside the file, STRICTLY MORE THAN 100 of
the 1024 bytes read at it are non-zero (the claim said rejection happens
exactly below 100), and at least 5 of the first 10 sampled 8-byte
messages have a non-zero byte sum and a timestamp strictly between 1000
and 65000; the first accepted offset becomes `data_start_offset`, and
when no candidate is accepted the offset is 20480 with a warning. -/
theorem C1_find_data_section (file : List ℕ) :
    findDataSection file = (candidateOffsets.find? (acceptsOffset file)).getD 20480 ∧
      (findDataSectionWarned file = true ↔
        ∀ off ∈ candidateOffsets, acceptsOffset file off = false) := by
  constructor
  · rw [findDataSection, findDataSectionLoop_eq_find?]
  · rw [findDataSectionWarned, findDataSectionLoop_eq_find?, Option.isNone_iff_eq_none,
      List.find?_eq_none]
    constructor
    · intro h off hmem
      exact Bool.eq_false_iff.mpr (h off hmem)
    · intro h off hmem
      exact Bool.eq_false_iff.mp (h off hmem)

/-! ## Claim C4 -/

/-- C4: the glitch filter returns the input unchanged when the threshold
is 0 or fewer than 3 samples are present; otherwise it preserves length,
and the output at each interior index `i` is the floor average
`(values[i-1] + values[i+1]) // 2` of the original neighbours exactly
when both neighbour differences strictly exceed the threshold and is
`values[i]` otherwise, all computed from the pre-filter values; boundary
indices are returned unchanged. -/
theorem C4_glitch_filter (t : ℤ) (values : List ℤ) :
    ((t = 0 ∨ values.length < 3) → applyGlitchFilter t values = values) ∧
    (applyGlitchFilter t values).length = values.length ∧
    (¬(t = 0 ∨ values.length < 3) →
      (∀ i, 1 ≤ i → i + 1 < values.length →
        (applyGlitchFilter t values).getD i 0 =
          (if t < |values.getD i 0 - values.getD (i - 1) 0| ∧
              t < |values.getD i 0 - values.getD (i + 1) 0| then
            (values.getD (i - 1) 0 + values.getD (i + 1) 0).fdiv 2
          else values.getD i 0)) ∧
      (∀ i, i = 0 ∨ values.length ≤ i + 1 →
        (applyGlitchFilter t values).getD i 0 = values.getD i 0)) := by
  refine ⟨fun h => by rw [applyGlitchFilter, if_pos h], ?_, fun h => ⟨?_, ?_⟩⟩
  · by_cases h : t = 0 ∨ values.length < 3
    · rw [applyGlitchFilter, if_pos h]
    · rw [applyGlitchFilter, if_neg h]
      simp
  · intro i h1 h2
    rw [applyGlitchFilter, if_neg h]
    have hi : i < values.length := by omega
    rw [List.getD_eq_getElem?_getD, List.getElem?_map, List.getElem?_range hi]
    simp [h1, h2]
  · intro i hb
    rw [applyGlitchFilter, if_neg h]
    by_cases hi : i < values.length
    · rw [List.getD_eq_getElem?_getD, List.getElem?_map, List.getElem?_range hi]
      have : ¬(1 ≤ i ∧ i + 1 < values.length ∧
          t < |values.getD i 0 - values.getD (i - 1) 0| ∧
          t < |values.getD i 0 - values.getD (i + 1) 0|) := by omega
      simp only [List.getD_eq_getElem?_getD] at this
      simp [this]
    · have hlen : values.length ≤ i := Nat.le_of_not_lt hi
      rw [List.getD_eq_getElem?_getD, List.getD_eq_getElem?_getD]
      rw [List.getElem?_eq_none (by simpa using hlen), List.getElem?_eq_none]
      simp [hlen]

/-- C4 witness: on the specification's own example, index 2 of
`[1000, 1010, 2000, 1020, 1030]` with threshold 100 becomes
`(1010 + 1020) // 2 = 1015`. -/
theorem C4_witness :
    (applyGlitchFilter 100 [1000, 1010, 2000, 1020, 1030]).getD 2 0 = 1015 := by
  have h := (C4_glitch_filter 100 [1000, 1010, 2000, 1020, 1030]).2.2
    (by decide) |>.1 2 (by decide) (by decide)
  simpa using h

lemma takeWhile_all_append {p : Char → Bool} :
    ∀ (l1 l2 : List Char), (∀ c ∈ l1, p c = true) →
      (∀ x, l2.head? = some x → p x = false) →
      (l1 ++ l2).takeWhile p = l1 ∧ (l1 ++ l2).dropWhile p = l2
  | [], l2, _, h2 => by
    cases l2 with
    | nil => exact ⟨rfl, rfl⟩
    | cons x xs =>
      have hx := h2 x rfl
      simp [List.takeWhile_cons, List.dropWhile_cons, hx]
  | a :: l1, l2, h1, h2 => by
    have ha := h1 a (List.mem_cons_self a l1)
    have ih := takeWhile_all_append l1 l2 (fun c hc => h1 c (List.mem_cons_of_mem a hc)) h2
    simp [List.takeWhile_cons, List.dropWhile_cons, ha, ih.1, ih.2]

lemma extMatchesNdf_head (ext : List Char) (h : extMatchesNdf ext = true) :
    ∀ x, ext.head? = some x → isAsciiDigit x = false := by
  cases ext with
  | nil => simp [extMatchesNdf] at h
  | cons a tl =>
    cases tl with
    | nil => simp [extMatchesNdf] at h
    | cons b tl2 =>
      cases tl2 with
      | nil => simp [extMatchesNdf] at h
      | cons c tl3 =>
        cases tl3 with
        | nil => simp [extMatchesNdf] at h
        | cons d tl4 =>
          cases tl4 with
          | cons e tl5 => simp [extMatchesNdf] at h
          | nil =>
            simp only [extMatchesNdf, Bool.and_eq_true, decide_eq_true_eq] at h
            intro x hx
            simp only [List.head?_cons, Option.some.injEq] at hx
            rw [← hx, h.1.1.1]
            decide

/-! ## Claim C6 -/

/-- C6: the archive start time resolves to `some t` exactly for filenames
that consist of a literal `M`, exactly 10 decimal digits whose value is
`t`, and a case-insensitive `.ndf` extension; every other filename shape
(including 9 or 11 digits) yields `none`.  (Modelled from the spec, since
`get_archive_start_time` is absent from the sources.) -/
theorem C6_filename_timestamp (cs : List Char) (t : ℕ) :
    getArchiveStartTime cs = some t ↔
      ∃ ds ext, cs = 'M' :: (ds ++ ext) ∧ ds.length = 10 ∧
        (∀ c ∈ ds, isAsciiDigit c = true) ∧ extMatchesNdf ext = true ∧
        t = digitsToNat ds := by
  constructor
  · intro h
    cases cs with
    | nil => simp [getArchiveStartTime] at h
    | cons c0 rest =>
      rw [show getArchiveStartTime (c0 :: rest)
          = if c0 = 'M' then
              (if (rest.takeWhile isAsciiDigit).length = 10
                  && extMatchesNdf (rest.dropWhile isAsciiDigit) then
                some (digitsToNat (rest.takeWhile isAsciiDigit))
              else none)
            else none from rfl] at h
      by_cases hc : c0 = 'M'
      · rw [if_pos hc] at h
        by_cases h10 : ((rest.takeWhile isAsciiDigit).length = 10
            && extMatchesNdf (rest.dropWhile isAsciiDigit)) = true
        · rw [if_pos h10] at h
          have h10' := h10
          simp only [Bool.and_eq_true, decide_eq_true_eq] at h10'
          refine ⟨rest.takeWhile isAsciiDigit, rest.dropWhile isAsciiDigit, ?_,
            h10'.1, ?_, h10'.2, ?_⟩
          · rw [hc, List.takeWhile_append_dropWhile]
          · intro c hcmem
            exact List.mem_takeWhile_imp hcmem
          · simpa using h.symm
        · rw [if_neg h10] at h
          simp at h
      · rw [if_neg hc] at h
        simp at h
  · rintro ⟨ds, ext, rfl, hlen, hdig, hext, rfl⟩
    have hsplit := takeWhile_all_append ds ext hdig (extMatchesNdf_head ext hext)
    rw [show getArchiveStartTime ('M' :: (ds ++ ext))
        = if ('M' : Char) = 'M' then
            (if ((ds ++ ext).takeWhile isAsciiDigit).length = 10
                && extMatchesNdf ((ds ++ ext).dropWhile isAsciiDigit) then
              some (digitsToNat ((ds ++ ext).takeWhile isAsciiDigit))
            else none)
          else none from rfl]
    rw [if_pos rfl, hsplit.1, hsplit.2]
    simp [hlen, hext]

/-! ## Claim C10 -/

/-- C10: after `NDFReader` construction, `data_start_offset` is always a
resolved integer (the 20480 fallback fills in when no candidate is
accepted), so the no-telemetry early return of `read_channel_data` and
the `ValueError` raise of `_parse_telemetry_messages` are unreachable:
both always produce ok results. -/
theorem C10_data_offset_resolved (file : List ℕ) (ch : ℕ) (rate ilen : ℚ) :
    (∃ off, (mkNDFReader file).dataStartOffset = some off) ∧
    (∃ msgs, parseTelemetryMessages (mkNDFReader file) = .ok msgs) ∧
    (∃ ivs, readChannelData (mkNDFReader file) ch rate ilen = .ok ivs) := by
  have hoff : ∃ off, (mkNDFReader file).dataStartOffset = some off := by
    rw [mkNDFReader]
    cases findDataSectionLoop file candidateOffsets with
    | none => exact ⟨20480, rfl⟩
    | some off => exact ⟨off, rfl⟩
  obtain ⟨off, hoff'⟩ := hoff
  have hparse : parseTelemetryMessages (mkNDFReader file) =
      .ok (parseMessages ((mkNDFReader file).file.drop off)) := by
    rw [parseTelemetryMessages, hoff']
  refine ⟨⟨off, hoff'⟩, ⟨_, hparse⟩, ?_⟩
  simp only [readChannelData, hoff', hparse]
  split
  · exact ⟨[], rfl⟩
  · exact ⟨_, rfl⟩

/-! ## Chunking lemmas for the text-reader path -/

lemma chunkAux_getElem? (rate : ℚ) (n : ℕ) (hn : 0 < n) :
    ∀ (fuel : ℕ) (values : List ℤ) (i k : ℕ), values.length ≤ fuel →
      (chunkAux rate n fuel i values)[k]? =
        if k * n < values.length then
          some (((i + k * n : ℕ) : ℚ) / rate, (values.drop (k * n)).take n)
        else none := by
  intro fuel
  induction fuel with
  | zero =>
    intro values i k hle
    have : values = [] := List.length_eq_zero.mp (Nat.le_zero.mp hle)
    subst this
    simp [chunkAux]
  | succ fuel ih =>
    intro values i k hle
    cases values with
    | nil => simp [chunkAux]
    | cons v vs =>
      have hguard : 0 < ((v :: vs).take n).length := by
        simp [List.length_take]
        omega
      rw [chunkAux]
      rw [if_neg (by simp), if_pos hguard]
      cases k with
      | zero =>
        rw [List.getElem?_cons_zero, if_pos (by simp)]
        simp
      | succ k =>
        rw [List.getElem?_cons_succ]
        rw [ih ((v :: vs).drop n) (i + n) k
          (by simp only [List.length_drop, List.length_cons]
              simp only [List.length_cons] at hle
              omega)]
        have hmul : (k + 1) * n = k * n + n := by ring
        have hdrop : ((v :: vs).drop n).length = (v :: vs).length - n := by
          simp [List.length_drop]
        by_cases hcond : k * n < ((v :: vs).drop n).length
        · rw [if_pos hcond, if_pos (by omega)]
          have harg : i + n + k * n = i + (k + 1) * n := by omega
          rw [List.drop_drop, harg]
          have h2 : n + k * n = (k + 1) * n := by ring
          rw [h2]
        · rw [if_neg hcond, if_neg (by omega)]

lemma chunkAux_flatten (rate : ℚ) (n : ℕ) (hn : 0 < n) :
    ∀ (fuel : ℕ) (values : List ℤ) (i : ℕ), values.length ≤ fuel →
      ((chunkAux rate n fuel i values).map Prod.snd).flatten = values := by
  intro fuel
  induction fuel with
  | zero =>
    intro values i hle
    have : values = [] := List.length_eq_zero.mp (Nat.le_zero.mp hle)
    subst this
    simp [chunkAux]
  | succ fuel ih =>
    intro values i hle
    cases values with
    | nil => simp [chunkAux]
    | cons v vs =>
      have hguard : 0 < ((v :: vs).take n).length := by
        simp [List.length_take]
        omega
      rw [chunkAux]
      rw [if_neg (by simp), if_pos hguard]
      simp only [List.map_cons, List.flatten_cons]
      rw [ih ((v :: vs).drop n) (i + n)
        (by simp only [List.length_drop, List.length_cons]
            simp only [List.length_cons] at hle
            omega)]
      exact List.take_append_drop n (v :: vs)

/-! ## Interval lemmas for the NDF-message path -/

lemma fitToSize_length (n : ℕ) (buf : List ℤ) :
    (fitToSize n buf).length = n := by
  rw [fitToSize]
  split
  · simp
    omega
  · simp
    omega

lemma intervalsAux_mem_length (n : ℕ) (hn : 0 < n) (ilen : ℚ) :
    ∀ (msgs : List TelemetryMsg) (buf : List ℤ) (start : ℚ) (p : ℚ × List ℤ),
      p ∈ intervalsAux n ilen msgs buf start → p.2.length = n
  | [], buf, start, p => by simp [intervalsAux]
  | [m], buf, start, p => by
    simp only [intervalsAux]
    split
    · simp
    · intro hp
      simp only [List.mem_singleton] at hp
      subst hp
      exact fitToSize_length n _
  | m :: m2 :: rest, buf, start, p => by
    simp only [intervalsAux]
    split
    · split
      · exact intervalsAux_mem_length n hn ilen (m2 :: rest) _ _ p
      · intro hp
        rcases List.mem_cons.mp hp with h | h
        · subst h
          exact fitToSize_length n _
        · exact intervalsAux_mem_length n hn ilen (m2 :: rest) [] _ p h
    · exact intervalsAux_mem_length n hn ilen (m2 :: rest) _ _ p

lemma intervalsAux_map_fst (n : ℕ) (ilen : ℚ) :
    ∀ (msgs : List TelemetryMsg) (buf : List ℤ) (start : ℚ),
      (intervalsAux n ilen msgs buf start).map Prod.fst =
        (List.range (intervalsAux n ilen msgs buf start).length).map
          (fun k : ℕ => start + (k : ℚ) * ilen)
  | [], buf, start => by simp [intervalsAux]
  | [m], buf, start => by
    simp only [intervalsAux]
    split
    · simp
    · simp [List.range_succ_eq_map]
  | m :: m2 :: rest, buf, start => by
    simp only [intervalsAux]
    split
    · split
      · exact intervalsAux_map_fst n ilen (m2 :: rest) _ _
      · rw [List.map_cons, intervalsAux_map_fst n ilen (m2 :: rest) [] (start + ilen),
          List.length_cons, List.range_succ_eq_map, List.map_cons, List.map_map]
        congr 1
        · simp
        · refine List.map_congr_left fun k _ => ?_
          simp only [Function.comp_apply]
          push_cast
          ring
    · exact intervalsAux_map_fst n ilen (m2 :: rest) _ _

lemma padChunks_fuel (n : ℕ) (hn : 0 < n) :
    ∀ (f1 f2 : ℕ) (l : List ℤ), l.length ≤ f1 → l.length ≤ f2 →
      padChunks n f1 l = padChunks n f2 l := by
  intro f1
  induction f1 with
  | zero =>
    intro f2 l h1 _
    have : l = [] := List.length_eq_zero.mp (Nat.le_zero.mp h1)
    subst this
    cases f2 with
    | zero => rfl
    | succ f2 => rfl
  | succ f1 ih =>
    intro f2 l h1 h2
    cases l with
    | nil =>
      cases f2 with
      | zero => rfl
      | succ f2 => rfl
    | cons v vs =>
      cases f2 with
      | zero => simp at h2
      | succ f2 =>
        rw [padChunks, padChunks]
        split
        · rfl
        · congr 1
          refine ih f2 ((v :: vs).drop n) ?_ ?_
          · simp only [List.length_drop, List.length_cons]
            simp only [List.length_cons] at h1
            omega
          · simp only [List.length_drop, List.length_cons]
            simp only [List.length_cons] at h2
            omega

/-- Chunking of a flat sample list with the list length as fuel. -/
def padChunksF (n : ℕ) (l : List ℤ) : List (List ℤ) := padChunks n l.length l

lemma padChunksF_unfold (n : ℕ) (hn : 0 < n) (l : List ℤ) (hne : l ≠ []) :
    padChunksF n l = if l.length ≤ n then [fitToSize n l]
      else l.take n :: padChunksF n (l.drop n) := by
  cases l with
  | nil => exact absurd rfl hne
  | cons v vs =>
    show padChunks n (v :: vs).length (v :: vs) = _
    have hstep : padChunks n (v :: vs).length (v :: vs)
        = if (v :: vs).length ≤ n then [fitToSize n (v :: vs)]
          else (v :: vs).take n :: padChunks n vs.length ((v :: vs).drop n) := rfl
    rw [hstep]
    by_cases h : (v :: vs).length ≤ n
    · rw [if_pos h, if_pos h]
    · rw [if_neg h, if_neg h]
      congr 1
      rw [padChunksF]
      refine (padChunks_fuel n hn vs.length ((v :: vs).drop n).length _ ?_ le_rfl)
      simp only [List.length_drop, List.length_cons]
      omega

lemma padChunksF_short (n : ℕ) (hn : 0 < n) (l : List ℤ) (hne : l ≠ [])
    (hlen : l.length ≤ n) : padChunksF n l = [fitToSize n l] := by
  rw [padChunksF_unfold n hn l hne, if_pos hlen]

lemma padChunksF_step_full (n : ℕ) (hn : 0 < n) (l tail : List ℤ)
    (hlen : l.length = n) (htail : tail ≠ []) :
    padChunksF n (l ++ tail) = l :: padChunksF n tail := by
  have htl : 0 < tail.length := List.length_pos.mpr htail
  have hne : l ++ tail ≠ [] := by
    intro hc
    have : (l ++ tail).length = 0 := by rw [hc]; rfl
    simp only [List.length_append] at this
    omega
  have hlong : ¬((l ++ tail).length ≤ n) := by
    simp only [List.length_append, hlen]
    omega
  rw [padChunksF_unfold n hn _ hne, if_neg hlong]
  congr 1
  · rw [← hlen, List.take_left]
  · rw [← hlen, List.drop_left]

lemma flatSamples_cons (m : TelemetryMsg) (msgs : List TelemetryMsg) :
    flatSamples (m :: msgs) = m.samples.map clampSample ++ flatSamples msgs := by
  simp [flatSamples]

lemma intervalsAux_padChunks (n : ℕ) (hn : 0 < n) (h2n : 2 ∣ n) (ilen : ℚ) :
    ∀ (msgs : List TelemetryMsg) (buf : List ℤ) (start : ℚ),
      (∀ m ∈ msgs, m.samples.length = 2) → buf.length < n → 2 ∣ buf.length →
      msgs ≠ [] →
      (intervalsAux n ilen msgs buf start).map Prod.snd =
        padChunksF n (buf ++ flatSamples msgs)
  | [], _, _, _, _, _, hne => absurd rfl hne
  | [m], buf, start, hsam, hblt, hb2, _ => by
    have hm := hsam m (List.mem_singleton_self m)
    have hbuf2len : (buf ++ m.samples.map clampSample).length = buf.length + 2 := by
      simp [hm]
    have hne2 : buf ++ m.samples.map clampSample ≠ [] := by
      intro hc
      rw [hc] at hbuf2len
      simp at hbuf2len
    simp only [intervalsAux]
    rw [if_neg hne2, flatSamples_cons]
    have hflat0 : flatSamples ([] : List TelemetryMsg) = [] := by simp [flatSamples]
    rw [hflat0, List.append_nil]
    rw [padChunksF_short n hn _ hne2 (by omega)]
    simp
  | m :: m2 :: rest, buf, start, hsam, hblt, hb2, _ => by
    have hm := hsam m (by simp)
    have hbuf2len : (buf ++ m.samples.map clampSample).length = buf.length + 2 := by
      simp [hm]
    have hrest2 : ∀ m' ∈ m2 :: rest, m'.samples.length = 2 := fun m' hm' =>
      hsam m' (by simp [hm'])
    have hne2 : buf ++ m.samples.map clampSample ≠ [] := by
      intro hc
      rw [hc] at hbuf2len
      simp at hbuf2len
    have htail : flatSamples (m2 :: rest) ≠ [] := by
      have hm2 := hrest2 m2 (by simp)
      rw [flatSamples_cons]
      intro hc
      have : (m2.samples.map clampSample ++ flatSamples rest).length = 0 := by
        rw [hc]; rfl
      simp only [List.length_append, List.length_map, hm2] at this
      omega
    have hflat : flatSamples (m :: m2 :: rest)
        = m.samples.map clampSample ++ flatSamples (m2 :: rest) :=
      flatSamples_cons m (m2 :: rest)
    simp only [intervalsAux]
    by_cases hfull : n ≤ (buf ++ m.samples.map clampSample).length
    · rw [if_pos hfull, if_neg hne2]
      have heq : (buf ++ m.samples.map clampSample).length = n := by omega
      have hfit : fitToSize n (buf ++ m.samples.map clampSample)
          = buf ++ m.samples.map clampSample := by
        rw [fitToSize, if_neg (by omega)]
        exact List.take_of_length_le (le_of_eq heq)
      rw [List.map_cons, hfit]
      rw [intervalsAux_padChunks n hn h2n ilen (m2 :: rest) [] (start + ilen) hrest2
        (by simpa using hn) (by simp) (by simp)]
      rw [hflat, ← List.append_assoc]
      rw [padChunksF_step_full n hn _ _ heq htail]
      simp
    · rw [if_neg hfull]
      rw [intervalsAux_padChunks n hn h2n ilen (m2 :: rest)
        (buf ++ m.samples.map clampSample) start hrest2 (by omega) (by omega) (by simp)]
      rw [hflat, ← List.append_assoc]

lemma samplesPerInterval_two_one : samplesPerInterval 2 1 = 2 := by
  have h1 : (2 : ℚ) * 1 = ((2 : ℕ) : ℚ) := by norm_num
  rw [samplesPerInterval, pyTrunc, h1, if_neg (not_lt.mpr (by positivity)),
    Int.floor_natCast]
  rfl

/-! ## Claim C2 -/

/-- C2: with `n = int(sample_rate * interval_length) ≥ 1`, the text
reader partitions the flat value sequence into consecutive chunks of
exactly `n` samples — chunk `k` is the `n`-slice starting at sample
`k·n`, so every chunk except a possibly shorter final one has `n`
samples, nothing is ever padded (the chunks flatten back to the input),
and chunk `k` starts at time `(k·n) / rate`, the count of samples before
it over the rate — whereas every interval produced from NDF messages has
exactly `n` samples (a short final buffer is padded, an over-full one
truncated, which for two-sample messages and even `n` makes the interval
sample lists exactly the `padChunksF` chunking of the sorted flattened
clamped stream, whose final chunk repeats its last value), with start
times forming the counter `0, ilen, 2·ilen, …`. -/
theorem C2_interval_partition (values : List ℤ) (msgs : List TelemetryMsg)
    (rate ilen : ℚ) (n : ℕ) (hn : samplesPerInterval rate ilen = n) (hpos : 0 < n) :
    (∀ k : ℕ, (textReadSignal values rate ilen)[k]? =
        (if k * n < values.length then
          some (((k * n : ℕ) : ℚ) / rate, (values.drop (k * n)).take n)
        else none)) ∧
    ((textReadSignal values rate ilen).map Prod.snd).flatten = values ∧
    (∀ p ∈ messagesToIntervals msgs rate ilen, p.2.length = n) ∧
    ((messagesToIntervals msgs rate ilen).map Prod.fst =
      (List.range (messagesToIntervals msgs rate ilen).length).map
        (fun k : ℕ => (k : ℚ) * ilen)) ∧
    ((∀ m ∈ msgs, m.samples.length = 2) → 2 ∣ n →
      (messagesToIntervals msgs rate ilen).map Prod.snd =
        padChunksF n (flatSamples (sortMessagesByTimestamp msgs))) := by
  refine ⟨?_, ?_, ?_, ?_, ?_⟩
  · intro k
    rw [textReadSignal, hn]
    rw [chunkAux_getElem? rate n hpos values.length values 0 k le_rfl]
    simp
  · rw [textReadSignal, hn]
    exact chunkAux_flatten rate n hpos values.length values 0 le_rfl
  · intro p hp
    rw [messagesToIntervals] at hp
    by_cases hm : msgs = []
    · rw [if_pos hm] at hp
      simp at hp
    · rw [if_neg hm, hn] at hp
      exact intervalsAux_mem_length n hpos ilen _ _ _ p hp
  · rw [messagesToIntervals]
    by_cases hm : msgs = []
    · rw [if_pos hm]
      simp
    · rw [if_neg hm, hn]
      rw [intervalsAux_map_fst n ilen (sortMessagesByTimestamp msgs) [] 0]
      refine List.map_congr_left fun k _ => ?_
      rw [zero_add]
  · intro hsam h2n
    rw [messagesToIntervals]
    by_cases hm : msgs = []
    · rw [if_pos hm]
      subst hm
      have hs : sortMessagesByTimestamp ([] : List TelemetryMsg) = [] := rfl
      have hf : flatSamples ([] : List TelemetryMsg) = [] := by simp [flatSamples]
      rw [hs, hf]
      rfl
    · rw [if_neg hm, hn]
      have hperm := List.perm_insertionSort
        (fun a b : TelemetryMsg => a.timestamp ≤ b.timestamp) msgs
      have hsorted_ne : sortMessagesByTimestamp msgs ≠ [] := by
        intro hc
        rw [sortMessagesByTimestamp] at hc
        rw [hc] at hperm
        exact hm (hperm.symm.eq_nil)
      have hsam' : ∀ m ∈ sortMessagesByTimestamp msgs, m.samples.length = 2 := by
        intro m hmm
        refine hsam m ?_
        rw [sortMessagesByTimestamp] at hmm
        exact hperm.mem_iff.mp hmm
      have h := intervalsAux_padChunks n hpos h2n ilen (sortMessagesByTimestamp msgs)
        [] 0 hsam' (by simpa using hpos) (by simp) hsorted_ne
      simpa using h

/-- C2 witness: on the specification's own example, the text reader
partitions `[1000, 2000, 3000]` at rate 2 and interval length 1 into
chunks that flatten back to the input. -/
theorem C2_witness :
    ((textReadSignal [1000, 2000, 3000] 2 1).map Prod.snd).flatten
      = [1000, 2000, 3000] :=
  (C2_interval_partition [1000, 2000, 3000] [] 2 1 2 samplesPerInterval_two_one
    (by decide)).2.1

lemma clampSample_bounds (s : ℤ) : 0 ≤ clampSample s ∧ clampSample s ≤ 65535 := by
  rw [clampSample]
  exact ⟨le_max_left 0 _, max_le (by norm_num) (min_le_left _ _)⟩

lemma fitToSize_mem_bounds (n : ℕ) (buf : List ℤ)
    (h : ∀ v ∈ buf, 0 ≤ v ∧ v ≤ 65535) :
    ∀ v ∈ fitToSize n buf, 0 ≤ v ∧ v ≤ 65535 := by
  intro v hv
  rw [fitToSize] at hv
  split at hv
  · rcases List.mem_append.mp hv with h1 | h1
    · exact h v h1
    · have hrep := List.eq_of_mem_replicate h1
      subst hrep
      rw [List.getLastD_eq_getLast?]
      cases hgl : buf.getLast? with
      | none => exact ⟨le_rfl, by norm_num⟩
      | some a => exact h a (List.mem_of_getLast?_eq_some hgl)
  · exact h v (List.take_subset n buf hv)

lemma intervalsAux_mem_bounds (n : ℕ) (ilen : ℚ) :
    ∀ (msgs : List TelemetryMsg) (buf : List ℤ) (start : ℚ),
      (∀ v ∈ buf, 0 ≤ v ∧ v ≤ 65535) →
      ∀ p ∈ intervalsAux n ilen msgs buf start, ∀ v ∈ p.2, 0 ≤ v ∧ v ≤ 65535
  | [], buf, start, hbuf, p => by simp [intervalsAux]
  | [m], buf, start, hbuf, p => by
    have hbuf2 : ∀ v ∈ buf ++ m.samples.map clampSample, 0 ≤ v ∧ v ≤ 65535 := by
      intro v hv
      rcases List.mem_append.mp hv with h1 | h1
      · exact hbuf v h1
      · obtain ⟨s, _, rfl⟩ := List.mem_map.mp h1
        exact clampSample_bounds s
    simp only [intervalsAux]
    split
    · simp
    · intro hp
      simp only [List.mem_singleton] at hp
      subst hp
      exact fitToSize_mem_bounds n _ hbuf2
  | m :: m2 :: rest, buf, start, hbuf, p => by
    have hbuf2 : ∀ v ∈ buf ++ m.samples.map clampSample, 0 ≤ v ∧ v ≤ 65535 := by
      intro v hv
      rcases List.mem_append.mp hv with h1 | h1
      · exact hbuf v h1
      · obtain ⟨s, _, rfl⟩ := List.mem_map.mp h1
        exact clampSample_bounds s
    simp only [intervalsAux]
    split
    · split
      · exact intervalsAux_mem_bounds n ilen (m2 :: rest) _ _ hbuf2 p
      · intro hp
        rcases List.mem_cons.mp hp with h | h
        · subst h
          exact fitToSize_mem_bounds n _ hbuf2
        · exact intervalsAux_mem_bounds n ilen (m2 :: rest) [] _ (by simp) p h
    · exact intervalsAux_mem_bounds n ilen (m2 :: rest) _ _ hbuf2 p

/-! ## Claim C7 -/

/-- C7 (counterexample): the text reader stores parsed values without
clamping, so a parsed value of 70000 enters an interval unchanged even
though it lies outside [0, 65535]. -/
theorem C7_counterexample :
    (textReadSignal [70000] 2 1).map Prod.snd = [[(70000 : ℤ)]] ∧
      ¬((70000 : ℤ) ≤ 65535) := by
  constructor
  · rw [textReadSignal, samplesPerInterval_two_one]
    decide
  · decide

/-- C7 (amended): samples entering intervals from NDF messages are
clamped to [0, 65535] by `_messages_to_intervals` (the padding value
included), but the text reader stores the parsed values unchanged — its
intervals flatten back to exactly the input sequence, so a text-path
sample need not lie in [0, 65535]. -/
theorem C7_sample_clamping :
    (∀ (msgs : List TelemetryMsg) (rate ilen : ℚ),
      ∀ p ∈ messagesToIntervals msgs rate ilen, ∀ v ∈ p.2, 0 ≤ v ∧ v ≤ 65535) ∧
    (∀ (values : List ℤ) (rate ilen : ℚ), 0 < samplesPerInterval rate ilen →
      ((textReadSignal values rate ilen).map Prod.snd).flatten = values) := by
  constructor
  · intro msgs rate ilen p hp
    rw [messagesToIntervals] at hp
    by_cases hm : msgs = []
    · rw [if_pos hm] at hp
      simp at hp
    · rw [if_neg hm] at hp
      exact intervalsAux_mem_bounds _ ilen _ _ _ (by simp) p hp
  · intro values rate ilen hpos
    rw [textReadSignal]
    exact chunkAux_flatten rate _ hpos values.length values 0 le_rfl

/-- C7 witness: the amended text-path statement at a concrete input. -/
theorem C7_witness :
    ((textReadSignal [1000, 70000] 2 1).map Prod.snd).flatten = [1000, 70000] :=
  C7_sample_clamping.2 [1000, 70000] 2 1
    (lt_of_lt_of_eq (by decide : (0 : ℕ) < 2) samplesPerInterval_two_one.symm)

lemma lookupChannel_eq_some_of_mem :
    ∀ (data : List (ℕ × List (ℚ × List ℤ))), (data.map Prod.fst).Nodup →
      ∀ p ∈ data, lookupChannel data p.1 = some p.2
  | [], _, p, hp => by simp at hp
  | q :: rest, hnd, p, hp => by
    rw [lookupChannel]
    rcases List.mem_cons.mp hp with h | h
    · subst h
      rw [if_pos rfl]
    · have hnd' : (q.1 :: rest.map Prod.fst).Nodup := by
        rw [List.map_cons] at hnd
        exact hnd
      have hq : q.1 ≠ p.1 := by
        intro hc
        have h1 : q.1 ∈ rest.map Prod.fst := by
          rw [hc]
          exact List.mem_map_of_mem Prod.fst h
        exact (List.nodup_cons.mp hnd').1 h1
      rw [if_neg hq]
      exact lookupChannel_eq_some_of_mem rest (List.nodup_cons.mp hnd').2 p h

lemma lookupChannel_isSome :
    ∀ (data : List (ℕ × List (ℚ × List ℤ))) (ch : ℕ), ch ∈ data.map Prod.fst →
      ∃ l, lookupChannel data ch = some l
  | [], ch, h => by simp at h
  | q :: rest, ch, h => by
    rw [lookupChannel]
    by_cases hq : q.1 = ch
    · exact ⟨q.2, by rw [if_pos hq]⟩
    · have : ch ∈ rest.map Prod.fst := by
        rw [List.map_cons] at h
        rcases List.mem_cons.mp h with h1 | h1
        · exact absurd h1.symm hq
        · exact h1
      obtain ⟨l, hl⟩ := lookupChannel_isSome rest ch this
      exact ⟨l, by rw [if_neg hq, hl]⟩

lemma lookupChannel_mem :
    ∀ (data : List (ℕ × List (ℚ × List ℤ))) (ch : ℕ) (l : List (ℚ × List ℤ)),
      lookupChannel data ch = some l → (ch, l) ∈ data
  | [], ch, l, h => by simp [lookupChannel] at h
  | q :: rest, ch, l, h => by
    rw [lookupChannel] at h
    by_cases hq : q.1 = ch
    · rw [if_pos hq] at h
      have : l = q.2 := by
        simpa using h.symm
      subst this
      rw [← hq]
      exact List.mem_cons_self q rest
    · rw [if_neg hq] at h
      exact List.mem_cons_of_mem q (lookupChannel_mem rest ch l h)

/-! ## Claim C3 -/

/-- C3: `export_multi_channel` raises (an `Except.error`, after which no
data lines exist for the caller) exactly when the channel map is empty or
some channel in the map is mapped to an empty interval list; both raises
fire before the header or any line is produced. -/
theorem C3_multi_channel_contract (cfg : LabChartExporterCfg) (st0 : Option ℚ)
    (data : List (ℕ × List (ℚ × List ℤ))) (hnd : (data.map Prod.fst).Nodup) :
    (∃ e, exportMultiChannel cfg st0 data = .error e) ↔
      (data = [] ∨ ∃ p ∈ data, p.2 = []) := by
  simp only [exportMultiChannel]
  by_cases hd : data = []
  · rw [if_pos hd]
    exact ⟨fun _ => Or.inl hd, fun _ => ⟨_, rfl⟩⟩
  · rw [if_neg hd]
    cases hfind : (sortedChannels data).find?
        (fun ch => ((lookupChannel data ch).getD []).isEmpty) with
    | some ch =>
      constructor
      · intro _
        right
        have hpred := List.find?_some hfind
        have hmemch := List.mem_of_find?_eq_some hfind
        have hmem' : ch ∈ data.map Prod.fst := by
          rw [sortedChannels] at hmemch
          exact (List.perm_insertionSort _ _).mem_iff.mp hmemch
        obtain ⟨l, hl⟩ := lookupChannel_isSome data ch hmem'
        rw [hl] at hpred
        simp only [Option.getD_some, List.isEmpty_iff] at hpred
        exact ⟨(ch, l), lookupChannel_mem data ch l hl, hpred⟩
      · intro _
        exact ⟨_, rfl⟩
    | none =>
      constructor
      · rintro ⟨e, he⟩
        exact Except.noConfusion he
      · rintro (h | ⟨p, hp, hp2⟩)
        · exact absurd h hd
        · exfalso
          have hl : lookupChannel data p.1 = some p.2 :=
            lookupChannel_eq_some_of_mem data hnd p hp
          have hchmem : p.1 ∈ sortedChannels data := by
            rw [sortedChannels]
            exact (List.perm_insertionSort _ _).mem_iff.mpr
              (List.mem_map_of_mem Prod.fst hp)
          have hnone := List.find?_eq_none.mp hfind p.1 hchmem
          rw [hl] at hnone
          simp [hp2] at hnone

/-- C3 witness: a map with one channel bound to an empty interval list is
rejected. -/
theorem C3_witness :
    ∃ e, exportMultiChannel defaultCfg none [(1, [])] = .error e :=
  (C3_multi_channel_contract defaultCfg none [(1, [])] (by decide)).mpr
    (Or.inr ⟨(1, []), by decide, rfl⟩)

lemma lookupChannelValue_setChannelValue :
    ∀ (m : List (ℕ × ℤ)) (ch : ℕ) (v : ℤ) (ch' : ℕ),
      lookupChannelValue (setChannelValue m ch v) ch' =
        if ch' = ch then some v else lookupChannelValue m ch'
  | [], ch, v, ch' => by
    simp only [setChannelValue, lookupChannelValue]
    by_cases h : ch' = ch
    · rw [if_pos h.symm, if_pos h]
    · rw [if_neg (fun hc => h hc.symm), if_neg h]
  | p :: rest, ch, v, ch' => by
    simp only [setChannelValue]
    by_cases hp : p.1 = ch
    · rw [if_pos hp]
      simp only [lookupChannelValue]
      by_cases h' : p.1 = ch'
      · rw [if_pos h', if_pos (h'.symm.trans hp)]
      · have hcc : ¬(ch' = ch) := fun hc => h' (hp.trans hc.symm)
        rw [if_neg h', if_neg hcc, if_neg h']
    · rw [if_neg hp]
      simp only [lookupChannelValue]
      by_cases h' : p.1 = ch'
      · have hcc : ¬(ch' = ch) := fun hc => hp (h'.trans hc)
        rw [if_pos h', if_neg hcc, if_pos h']
      · rw [if_neg h', lookupChannelValue_setChannelValue rest ch v ch']
        by_cases hcc : ch' = ch
        · rw [if_pos hcc, if_pos hcc]
        · rw [if_neg hcc, if_neg hcc, if_neg h']

lemma cellAt_nil (rt : ℚ) (ch : ℕ) : cellAt [] rt ch = none := rfl

lemma cellAt_insertGroupSample :
    ∀ (groups : List (ℚ × List (ℕ × ℤ))) (rt : ℚ) (ch : ℕ) (v : ℤ)
      (rt' : ℚ) (ch' : ℕ),
      cellAt (insertGroupSample groups rt ch v) rt' ch' =
        if rt' = rt ∧ ch' = ch then some v else cellAt groups rt' ch'
  | [], rt, ch, v, rt', ch' => by
    simp only [insertGroupSample, cellAt, lookupGroup]
    by_cases h : rt = rt'
    · rw [if_pos h]
      simp only [Option.getD_some]
      rw [lookupChannelValue_setChannelValue]
      by_cases h2 : ch' = ch
      · rw [if_pos h2, if_pos ⟨h.symm, h2⟩]
      · rw [if_neg h2, if_neg (fun hc => h2 hc.2)]
        simp [lookupChannelValue]
    · rw [if_neg h, if_neg (fun hc => h hc.1.symm)]
  | g :: rest, rt, ch, v, rt', ch' => by
    simp only [insertGroupSample]
    by_cases hg : g.1 = rt
    · rw [if_pos hg]
      simp only [cellAt, lookupGroup]
      by_cases hg' : g.1 = rt'
      · rw [if_pos hg', if_pos hg']
        simp only [Option.getD_some]
        rw [lookupChannelValue_setChannelValue]
        by_cases h2 : ch' = ch
        · rw [if_pos h2, if_pos ⟨hg'.symm.trans hg, h2⟩]
        · rw [if_neg h2, if_neg (fun hc => h2 hc.2)]
      · rw [if_neg hg', if_neg hg',
          if_neg (fun hc : rt' = rt ∧ ch' = ch => hg' (hg.trans hc.1.symm))]
    · rw [if_neg hg]
      simp only [cellAt, lookupGroup]
      by_cases hg' : g.1 = rt'
      · rw [if_pos hg', if_pos hg',
          if_neg (fun hc : rt' = rt ∧ ch' = ch => hg (hg'.trans hc.1))]
      · rw [if_neg hg', if_neg hg']
        have ih := cellAt_insertGroupSample rest rt ch v rt' ch'
        simp only [cellAt] at ih
        exact ih

lemma cellAt_foldl_insert (rt : ℚ) (ch : ℕ) (samples : List (ℚ × ℕ × ℤ)) :
    ∀ (g : List (ℚ × List (ℕ × ℤ))),
      cellAt (samples.foldl
          (fun g s => insertGroupSample g (roundTo9 s.1) s.2.1 s.2.2) g) rt ch =
        ((samples.filter
            (fun s => decide (roundTo9 s.1 = rt) && decide (s.2.1 = ch))).getLast?.map
          (fun s => s.2.2)).or (cellAt g rt ch) := by
  induction samples using List.reverseRecOn with
  | nil =>
    intro g
    simp
  | append_singleton l s ih =>
    intro g
    rw [List.foldl_append, List.foldl_cons, List.foldl_nil, cellAt_insertGroupSample,
      List.filter_append]
    by_cases hs1 : roundTo9 s.1 = rt
    · by_cases hs2 : s.2.1 = ch
      · rw [if_pos ⟨hs1.symm, hs2.symm⟩]
        have hf : List.filter
            (fun s => decide (roundTo9 s.1 = rt) && decide (s.2.1 = ch)) [s] = [s] := by
          simp [List.filter, hs1, hs2]
        rw [hf, List.getLast?_concat]
        simp
      · rw [if_neg (fun hc => hs2 hc.2.symm)]
        have hf : List.filter
            (fun s => decide (roundTo9 s.1 = rt) && decide (s.2.1 = ch)) [s] = [] := by
          simp [List.filter, hs2]
        rw [hf, List.append_nil, ih g]
    · rw [if_neg (fun hc => hs1 hc.1.symm)]
      have hf : List.filter
          (fun s => decide (roundTo9 s.1 = rt) && decide (s.2.1 = ch)) [s] = [] := by
        simp [List.filter, hs1]
      rw [hf, List.append_nil, ih g]

/-! ## Claim C9 -/

/-- C9: in `export_multi_channel` every output data line carries exactly
one optional value per sorted channel (blank when absent), each line is
built from the timestamp-group map at one rounded time, and the value the
group map holds for a channel at a rounded time is the value of the LAST
sample in the (time, channel)-sorted pooled order whose timestamp rounds
there — so earlier same-channel samples rounding to the same
9-decimal-place timestamp are silently overwritten and dropped. -/
theorem C9_line_overwrite (cfg : LabChartExporterCfg) (st0 : Option ℚ)
    (data : List (ℕ × List (ℚ × List ℤ))) (lines : List (ℚ × List (Option ℚ)))
    (hok : exportMultiChannel cfg st0 data = .ok lines) :
    (∀ l ∈ lines, l.2.length = (sortedChannels data).length) ∧
    (∀ l ∈ lines,
      ∃ rt ∈ sortedTimes (buildTimestampGroups (pooledSorted cfg.glitchThreshold data)),
        l.2 = (sortedChannels data).map fun ch =>
          (cellAt (buildTimestampGroups (pooledSorted cfg.glitchThreshold data)) rt ch).map
            (fun v : ℤ => (v : ℚ) * mVPerCount cfg)) ∧
    (∀ (rt : ℚ) (ch : ℕ),
      cellAt (buildTimestampGroups (pooledSorted cfg.glitchThreshold data)) rt ch =
        ((pooledSorted cfg.glitchThreshold data).filter
            (fun s => decide (roundTo9 s.1 = rt) && decide (s.2.1 = ch))).getLast?.map
          (fun s => s.2.2)) := by
  have hthird : ∀ (rt : ℚ) (ch : ℕ),
      cellAt (buildTimestampGroups (pooledSorted cfg.glitchThreshold data)) rt ch =
        ((pooledSorted cfg.glitchThreshold data).filter
            (fun s => decide (roundTo9 s.1 = rt) && decide (s.2.1 = ch))).getLast?.map
          (fun s => s.2.2) := by
    intro rt ch
    rw [buildTimestampGroups, cellAt_foldl_insert rt ch _ [], cellAt_nil]
    simp
  simp only [exportMultiChannel] at hok
  by_cases hd : data = []
  · rw [if_pos hd] at hok
    exact Except.noConfusion hok
  · rw [if_neg hd] at hok
    cases hfind : (sortedChannels data).find?
        (fun ch => ((lookupChannel data ch).getD []).isEmpty) with
    | some ch =>
      rw [hfind] at hok
      exact Except.noConfusion hok
    | none =>
      rw [hfind] at hok
      have hlines := (Except.ok.inj hok).symm
      subst hlines
      refine ⟨?_, ?_, hthird⟩
      · intro l hl
        obtain ⟨rt, hrt, rfl⟩ := List.mem_map.mp hl
        simp
      · intro l hl
        obtain ⟨rt, hrt, rfl⟩ := List.mem_map.mp hl
        exact ⟨rt, hrt, rfl⟩

lemma exportMultiChannel_example :
    exportMultiChannel defaultCfg none [(1, [(0, [0])])] = .ok [(0, [some 0])] := by
  norm_num [exportMultiChannel, sortedChannels, lookupChannel, pooledSorted, allSamples,
    applyGlitchFilter, channelRate, buildTimestampGroups, insertGroupSample,
    setChannelValue, sortedTimes, cellAt, lookupGroup, lookupChannelValue, roundTo9,
    mVPerCount, defaultCfg, List.insertionSort, List.orderedInsert, List.find?,
    List.enum, List.enumFrom, List.filter]

/-- C9 witness: a one-sample export succeeds and its single line has one
cell for the single channel. -/
theorem C9_witness :
    ((0 : ℚ), [some (0 : ℚ)]).2.length = (sortedChannels [(1, [(0, [0])])]).length :=
  (C9_line_overwrite defaultCfg none [(1, [(0, [0])])] [(0, [some 0])]
    exportMultiChannel_example).1 (0, [some 0]) (by decide)

lemma sessionWalk_flatten (g : ℚ) :
    ∀ (rest : List (ℤ × Option ℚ × ℕ)) (prev : ℤ × Option ℚ × ℕ)
      (cur : List (ℤ × Option ℚ × ℕ)),
      (sessionWalk g rest prev cur).flatten = cur ++ rest
  | [], prev, cur => by simp [sessionWalk]
  | f :: rest, prev, cur => by
    rw [sessionWalk]
    by_cases hsplit : g < fileGap prev f
    · rw [if_pos hsplit, List.flatten_cons, sessionWalk_flatten g rest f [f]]
      simp
    · rw [if_neg hsplit, sessionWalk_flatten g rest f (cur ++ [f])]
      simp

lemma sessionWalk_ne_nil (g : ℚ) :
    ∀ rest prev cur, cur ≠ [] → ∀ s ∈ sessionWalk g rest prev cur, s ≠ []
  | [], prev, cur, hc, s => by
    rw [sessionWalk]
    intro hs
    rw [List.mem_singleton.mp hs]
    exact hc
  | f :: rest, prev, cur, hc, s => by
    rw [sessionWalk]
    by_cases hsplit : g < fileGap prev f
    · rw [if_pos hsplit]
      intro hs
      rcases List.mem_cons.mp hs with h | h
      · rw [h]; exact hc
      · exact sessionWalk_ne_nil g rest f [f] (by simp) s h
    · rw [if_neg hsplit]
      exact sessionWalk_ne_nil g rest f (cur ++ [f]) (by simp) s

lemma sessionWalk_head (g : ℚ) :
    ∀ rest prev cur, ∃ E T, sessionWalk g rest prev cur = (cur ++ E) :: T
  | [], prev, cur => ⟨[], [], by simp [sessionWalk]⟩
  | f :: rest, prev, cur => by
    rw [sessionWalk]
    by_cases hsplit : g < fileGap prev f
    · rw [if_pos hsplit]
      exact ⟨[], sessionWalk g rest f [f], by simp⟩
    · rw [if_neg hsplit]
      obtain ⟨E, T, hE⟩ := sessionWalk_head g rest f (cur ++ [f])
      exact ⟨[f] ++ E, T, by rw [hE]; simp⟩

lemma sessionWalk_chain (g : ℚ) :
    ∀ rest prev cur, cur.Chain' (fun a b => fileGap a b ≤ g) →
      cur.getLast? = some prev →
      ∀ s ∈ sessionWalk g rest prev cur, s.Chain' (fun a b => fileGap a b ≤ g)
  | [], prev, cur, hch, hl, s => by
    rw [sessionWalk]
    intro hs
    rw [List.mem_singleton.mp hs]
    exact hch
  | f :: rest, prev, cur, hch, hl, s => by
    rw [sessionWalk]
    by_cases hsplit : g < fileGap prev f
    · rw [if_pos hsplit]
      intro hs
      rcases List.mem_cons.mp hs with h | h
      · rw [h]; exact hch
      · exact sessionWalk_chain g rest f [f] (by simp) (by simp) s h
    · rw [if_neg hsplit]
      refine sessionWalk_chain g rest f (cur ++ [f]) ?_ (by simp) s
      rw [List.chain'_append]
      refine ⟨hch, by simp, ?_⟩
      intro x hx y hy
      rw [hl] at hx
      simp only [Option.mem_def, Option.some.injEq] at hx
      simp only [List.head?_cons, Option.mem_def, Option.some.injEq] at hy
      rw [hx, hy] at hsplit
      exact not_lt.mp hsplit

lemma sessionWalk_boundary (g : ℚ) :
    ∀ rest prev cur, cur.getLast? = some prev →
      (sessionWalk g rest prev cur).Chain'
        (fun s1 s2 => ∀ a b, s1.getLast? = some a → s2.head? = some b →
          g < fileGap a b)
  | [], prev, cur, hl => by
    rw [sessionWalk]
    simp
  | f :: rest, prev, cur, hl => by
    rw [sessionWalk]
    by_cases hsplit : g < fileGap prev f
    · rw [if_pos hsplit]
      refine List.chain'_cons'.mpr
        ⟨?_, sessionWalk_boundary g rest f [f] (by simp)⟩
      intro s2 hs2 a b ha hb
      obtain ⟨E, T, hE⟩ := sessionWalk_head g rest f [f]
      rw [hE] at hs2
      simp only [List.head?_cons, Option.mem_def, Option.some.injEq] at hs2
      rw [← hs2] at hb
      have hb' : b = f := by
        have : ([f] ++ E).head? = some f := by simp
        rw [this] at hb
        exact (Option.some.inj hb).symm
      have ha' : a = prev := by
        rw [hl] at ha
        exact (Option.some.inj ha).symm
      rw [ha', hb']
      exact hsplit
    · rw [if_neg hsplit]
      exact sessionWalk_boundary g rest f (cur ++ [f]) (by simp)

/-! ## Claim C5 -/

/-- C5: session grouping drops archives without a resolvable timestamp,
sorts the rest ascending by timestamp, and walks the sorted sequence
starting a new session exactly when the gap `current.timestamp −
(previous.timestamp + previous.duration)` (the timestamp alone when the
duration is unresolved, via `prevEndTime`) strictly exceeds the
threshold: the sessions are non-empty, partition the sorted kept files in
order, consecutive files inside a session have gap at most the threshold,
consecutive sessions are separated by a gap strictly above it, and an
empty input (or one with no resolvable timestamps) yields the empty
session list rather than an error. -/
theorem C5_session_grouping (files : List NDFFileInfo) (g : ℚ) :
    (groupNdfFilesIntoSessions [] g = []) ∧
    (filesWithData files = [] → groupNdfFilesIntoSessions files g = []) ∧
    ((sessionsOf files g).flatten = sortFilesByTimestamp (filesWithData files)) ∧
    ((sortFilesByTimestamp (filesWithData files)).Pairwise (fun a b => a.1 ≤ b.1)) ∧
    (∀ s ∈ sessionsOf files g, s ≠ [] ∧ s.Chain' (fun a b => fileGap a b ≤ g)) ∧
    ((sessionsOf files g).Chain'
      (fun s1 s2 => ∀ a b, s1.getLast? = some a → s2.head? = some b →
        g < fileGap a b)) ∧
    (filesWithData files ≠ [] →
      groupNdfFilesIntoSessions files g
        = (sessionsOf files g).map (List.map fun f => f.2.2)) := by
  refine ⟨rfl, ?_, ?_, ?_, ?_, ?_, ?_⟩
  · intro h
    rw [groupNdfFilesIntoSessions]
    by_cases hf : files = []
    · rw [if_pos hf]
    · rw [if_neg hf, if_pos h]
  · cases hsort : sortFilesByTimestamp (filesWithData files) with
    | nil =>
      have : sessionsOf files g = [] := by rw [sessionsOf, hsort]
      rw [this]
      rfl
    | cons first rest =>
      have : sessionsOf files g = sessionWalk g rest first [first] := by
        rw [sessionsOf, hsort]
      rw [this, sessionWalk_flatten]
      simp
  · rw [sortFilesByTimestamp]
    haveI : IsTotal (ℤ × Option ℚ × ℕ) (fun a b => a.1 ≤ b.1) :=
      ⟨fun a b => le_total a.1 b.1⟩
    haveI : IsTrans (ℤ × Option ℚ × ℕ) (fun a b => a.1 ≤ b.1) :=
      ⟨fun a b c h1 h2 => le_trans h1 h2⟩
    exact List.sorted_insertionSort _ _
  · intro s hs
    cases hsort : sortFilesByTimestamp (filesWithData files) with
    | nil =>
      have : sessionsOf files g = [] := by rw [sessionsOf, hsort]
      rw [this] at hs
      simp at hs
    | cons first rest =>
      have : sessionsOf files g = sessionWalk g rest first [first] := by
        rw [sessionsOf, hsort]
      rw [this] at hs
      exact ⟨sessionWalk_ne_nil g rest first [first] (by simp) s hs,
        sessionWalk_chain g rest first [first] (by simp) (by simp) s hs⟩
  · cases hsort : sortFilesByTimestamp (filesWithData files) with
    | nil =>
      have : sessionsOf files g = [] := by rw [sessionsOf, hsort]
      rw [this]
      simp
    | cons first rest =>
      have : sessionsOf files g = sessionWalk g rest first [first] := by
        rw [sessionsOf, hsort]
      rw [this]
      exact sessionWalk_boundary g rest first [first] (by simp)
  · intro hfwd
    have hf : files ≠ [] := by
      intro hc
      rw [hc] at hfwd
      exact hfwd rfl
    rw [groupNdfFilesIntoSessions, if_neg hf, if_neg hfwd]

/-- C5 witness: an input whose only file has no resolvable timestamp
yields the empty session list. -/
theorem C5_witness :
    groupNdfFilesIntoSessions [⟨none, none, 7⟩] 3600 = [] :=
  (C5_session_grouping [⟨none, none, 7⟩] 3600).2.1 (by decide)

/-! ## Claim C8 -/

/-- C8 (counterexample): with one exporter in relative-time mode, writing
to a second, fresh output file rebinds `start_time` — after initialising
file 0 at interval start 1 it holds `some 1`, and after initialising
file 1 at interval start 5 it holds `some 5`, so the field is assigned
more than once over the instance's lifetime and the first value is not
reused. -/
theorem C8_counterexample :
    ((exportIntervalStep false 0 1 ⟨none, []⟩).1.startTime = some 1) ∧
    ((exportIntervalStep false 1 5
        (exportIntervalStep false 0 1 ⟨none, []⟩).1).1.startTime = some 5) ∧
    (exportIntervalStep false 1 5
        (exportIntervalStep false 0 1 ⟨none, []⟩).1).1.startTime
      ≠ (exportIntervalStep false 0 1 ⟨none, []⟩).1.startTime := by
  refine ⟨rfl, rfl, by decide⟩

/-- C8 (amended): in relative-time mode `start_time` is assigned at every
initialisation of a new output file (rebound to that write's interval
start) and whenever it is still unset at a write; it is reused unchanged
for writes appended to an already-existing file, whose data lines start
at the interval start minus the bound `start_time`; `export_multi_channel`
assigns it only when unset (to the first sorted timestamp, or 0 with no
samples); in absolute-time mode it is never assigned and the emitted
times never depend on it. -/
theorem C8_start_time_binding (f : ℕ) (t t0 : ℚ) (s : ExporterDyn)
    (times : List ℚ) :
    ((exportIntervalStep true f t s).1.startTime = s.startTime ∧
      (exportIntervalStep true f t s).2 = t) ∧
    ((f ∉ s.existingFiles ∨ s.startTime = none) →
      (exportIntervalStep false f t s).1.startTime = some t) ∧
    (f ∈ s.existingFiles → s.startTime = some t0 →
      (exportIntervalStep false f t s).1.startTime = some t0 ∧
      (exportIntervalStep false f t s).2 = t - t0) ∧
    (multiChannelStartUpdate true s.startTime times = s.startTime) ∧
    (multiChannelStartUpdate false (some t0) times = some t0) ∧
    (multiChannelStartUpdate false none times = some (times.headD 0)) := by
  refine ⟨?_, ?_, ?_, ?_, ?_, ?_⟩
  · by_cases hm : f ∈ s.existingFiles <;> simp [exportIntervalStep, hm]
  · rintro (hm | hst)
    · simp [exportIntervalStep, hm]
    · by_cases hm : f ∈ s.existingFiles <;> simp [exportIntervalStep, hm, hst]
  · intro hm hst
    simp [exportIntervalStep, hm, hst]
  · simp [multiChannelStartUpdate]
  · simp [multiChannelStartUpdate]
  · simp [multiChannelStartUpdate]

/-- C8 witness: a write to an already-initialised file with `start_time`
still unset binds it to the interval start. -/
theorem C8_witness :
    (exportIntervalStep false 3 2 ⟨none, [3]⟩).1.startTime = some 2 :=
  (C8_start_time_binding 3 2 0 ⟨none, [3]⟩ []).2.1 (Or.inr rfl)
